import Mathlib

/-!
Verification of `src/html_parser/src/html_regex_page_splitter.py`
(repository `prospectus-bdt-converter`).

The Python module splits HTML text into page chunks at page-break style
declarations and can reconstruct the text from the chunks.  We embed the
module shallowly: text is `List Char`, the Python `re` patterns used by the
module are embedded as a small backtracking matcher (`Rx`, `mrun`) whose
priority order is Python's (alternation left-first, greedy star longest
first, lazy star shortest first), and each Python function becomes a Lean
function of the same name.
-/

namespace HtmlSplitter

/-- Single-character-class regexes with Python's backtracking priority:
the patterns in the source use only literals, character classes, `\s*`,
`[^...]*`, alternation, and one lazy `.*?` (in the `<head>` search). -/
inductive Rx where
  | eps
  | cls (p : Char → Bool)
  | seq (r1 r2 : Rx)
  | alt (r1 r2 : Rx)
  | star (p : Char → Bool)
  | lazyStarAny

/-- Candidate remaining suffixes after a greedy `[p]*`, longest match first
(Python's greedy priority). -/
def starSuffixes (p : Char → Bool) : List Char → List (List Char)
  | [] => [[]]
  | c :: s => if p c then starSuffixes p s ++ [c :: s] else [c :: s]

/-- Candidate remaining suffixes after a lazy `.*?` under DOTALL, shortest
match first (Python's lazy priority). -/
def lazySuffixes : List Char → List (List Char)
  | [] => [[]]
  | c :: s => (c :: s) :: lazySuffixes s

/-- All remaining suffixes after a match of `r` on a prefix of `s`, in
Python's backtracking priority order; the head is the suffix left by the
match Python's engine reports. -/
def mrun : Rx → List Char → List (List Char)
  | .eps, s => [s]
  | .cls _, [] => []
  | .cls p, c :: s => if p c then [s] else []
  | .seq r1 r2, s => (mrun r1 s).flatMap (fun s1 => mrun r2 s1)
  | .alt r1 r2, s => mrun r1 s ++ mrun r2 s
  | .star p, s => starSuffixes p s
  | .lazyStarAny, s => lazySuffixes s

/-- The suffix remaining after the match Python reports at this position
(anchored attempt), if any. -/
def matchAt (r : Rx) (s : List Char) : Option (List Char) :=
  (mrun r s).head?

/-- Embedding of `re.search` as a Bool: does `r` match starting at some position of `s`? -/
def rsearch (r : Rx) : List Char → Bool
  | [] => (matchAt r []).isSome
  | c :: s => (matchAt r (c :: s)).isSome || rsearch r s

/-- Embedding of `re.search` returning the first match's text (leftmost position, then
Python's in-position priority), as used for the `<head>` excerpt. -/
def searchFirst (r : Rx) : List Char → Option (List Char)
  | [] => if (matchAt r []).isSome then some [] else none
  | c :: s =>
    match matchAt r (c :: s) with
    | some rest => some ((c :: s).take ((c :: s).length - rest.length))
    | none => searchFirst r s

/-- Embedding of `re.finditer`: scan left to right, emit `(start, length)` of each
non-overlapping match; `skip` is the end of the previous match, before
which no new match may start (Python resumes scanning at a match's end). -/
def finditerAux (r : Rx) : List Char → Nat → Nat → List (Nat × Nat)
  | [], off, skip => if skip ≤ off ∧ (matchAt r []).isSome then [(off, 0)] else []
  | c :: s, off, skip =>
    if skip ≤ off then
      match matchAt r (c :: s) with
      | some rest =>
        let len := (c :: s).length - rest.length
        if len = 0 then (off, 0) :: finditerAux r s (off + 1) skip
        else (off, len) :: finditerAux r s (off + 1) (off + len)
      | none => finditerAux r s (off + 1) skip
    else finditerAux r s (off + 1) skip

/-- Python `\s` restricted to the ASCII range (the source documents and
test data are ASCII): space, tab, newline, carriage return, vertical tab,
form feed. -/
def isPySpace (c : Char) : Bool :=
  c == ' ' || c == '\t' || c == '\n' || c == '\r' || c == '\x0b' || c == '\x0c'

/-- A case-insensitive literal character (re.IGNORECASE). -/
def lit (c : Char) : Rx :=
  .cls (fun d => d.toLower == c.toLower)

/-- A case-insensitive literal string. -/
def lits (s : String) : Rx :=
  s.data.foldr (fun c r => .seq (lit c) r) .eps

/-- One CSS declaration pattern `prop\s*:\s*val` as written in the source's
pattern lists. -/
def declRx (prop val : String) : Rx :=
  .seq (lits prop) (.seq (.star isPySpace) (.seq (lit ':') (.seq (.star isPySpace) (lits val))))

/-- The list `self.page_break_patterns`, in source order. -/
def page_break_patterns : List Rx :=
  [declRx "page-break-before" "always",
   declRx "page-break-after" "always",
   declRx "break-before" "page",
   declRx "break-after" "page",
   declRx "break-before" "always",
   declRx "break-after" "always"]

/-- The list `self.break_avoidance_patterns`, in source order. -/
def break_avoidance_patterns : List Rx :=
  [declRx "page-break-inside" "avoid",
   declRx "break-inside" "avoid",
   declRx "page-break-before" "avoid",
   declRx "page-break-after" "avoid",
   declRx "break-before" "avoid",
   declRx "break-after" "avoid"]

/-- Embedding of `'|'.join(patterns)`: left-first alternation of a pattern list. -/
def altList : List Rx → Rx
  | [] => .eps
  | [r] => r
  | r :: rs => .alt r (altList rs)

/-- The compiled `self.avoid_regex` (the capturing groups around each alternative do not
affect matching). -/
def avoid_regex : Rx := altList break_avoidance_patterns

/-- The class `[^>]`. -/
def notGt (c : Char) : Bool := !(c == '>')

/-- The class `[^"']`. -/
def notQuote (c : Char) : Bool := !(c == '"' || c == '\'')

/-- The class `["']`. -/
def quoteCls : Rx := .cls (fun c => c == '"' || c == '\'')

/-- The `tag_pattern` regex from `split_html_by_regex`:
`<([^>]*style\s*=\s*["'][^"']*(?:TRIGGERS)[^"']*["'][^>]*)>` with
IGNORECASE and DOTALL (there is no `.` in it, so DOTALL is inert). -/
def tag_pattern : Rx :=
  .seq (lit '<')
    (.seq (.star notGt)
      (.seq (lits "style")
        (.seq (.star isPySpace)
          (.seq (lit '=')
            (.seq (.star isPySpace)
              (.seq quoteCls
                (.seq (.star notQuote)
                  (.seq (altList page_break_patterns)
                    (.seq (.star notQuote)
                      (.seq quoteCls
                        (.seq (.star notGt) (lit '>'))))))))))))

/-- All matches of `tag_pattern` over the text, as
`(match.start(), match.group())` pairs. -/
def tagMatches (html : List Char) : List (Nat × List Char) :=
  (finditerAux tag_pattern html 0 0).map
    (fun m => (m.1, (html.drop m.1).take m.2))

/-- Embedding of `match.group(1)`: the matched tag text without its enclosing `<` `>`. -/
def tagInner (t : List Char) : List Char := (t.drop 1).dropLast

/-- Python's `list.sort` / `sorted` is a stable sort; `stableInsert` puts
`a` before the first element `b` with `le a b`, so earlier elements stay
before equal later ones. -/
def stableInsert (le : α → α → Bool) (a : α) : List α → List α
  | [] => [a]
  | b :: l => if le a b then a :: b :: l else b :: stableInsert le a l

/-- Stable sort by `le` (insertion sort; agrees with any stable sort). -/
def stableSort (le : α → α → Bool) : List α → List α
  | [] => []
  | a :: l => stableInsert le a (stableSort le l)

/-- The list `break_positions` as computed by `split_html_by_regex`: matches of
`tag_pattern` whose tag text (group 1) does not match `avoid_regex`,
sorted by start offset (`break_positions.sort(key=lambda x: x[0])`). -/
def locateBreaks (html : List Char) : List (Nat × List Char) :=
  stableSort (fun a b => a.1 ≤ b.1)
    ((tagMatches html).filter (fun m => !rsearch avoid_regex (tagInner m.2)))

/-- The `break_element_info` field of a chunk dictionary. -/
inductive BreakInfo where
  | noBreaksFound
  | finalChunk
  | breakElement (breakText : List Char) (position : Nat)
  deriving DecidableEq

/-- One chunk dictionary produced by `split_html_by_regex`. -/
structure Chunk where
  page : Nat
  content : List Char
  has_break_before : Bool
  break_element_info : BreakInfo
  deriving DecidableEq

/-- The characters the splitter's walk-back treats as whitespace:
`('\n', '\r', ' ', '\t')`. -/
def isTrimWs (c : Char) : Bool :=
  c == '\n' || c == '\r' || c == ' ' || c == '\t'

/-- The `while` loop lowering `temp_break_pos`: starting from `break_pos`,
step back while `temp_break_pos > last_pos` and the preceding character is
trim whitespace.  (Indexing `html[t]` is `getD` with a non-whitespace
default; the loop only reads indices below `break_pos`, which are in
range.) -/
def trimBack (html : List Char) (lastPos : Nat) : Nat → Nat
  | 0 => 0
  | t + 1 =>
    if lastPos < t + 1 ∧ isTrimWs (html.getD t '\x00') then trimBack html lastPos t
    else t + 1

/-- Python slicing `text[i:j]` for `i ≤ j`. -/
def pySlice (html : List Char) (i j : Nat) : List Char :=
  (html.drop i).take (j - i)

/-- The `for page_num, (break_pos, break_text) in enumerate(break_positions, 1)`
loop of `split_html_by_regex`: returns the chunks it appends and the final
value of `last_pos`. -/
def segmentLoop (html : List Char) : List (Nat × List Char) → Nat → Nat → List Chunk × Nat
  | [], _, lastPos => ([], lastPos)
  | (breakPos, breakText) :: rest, pageNum, lastPos =>
    let tempBreakPos := trimBack html lastPos breakPos
    let chunkContent := pySlice html lastPos tempBreakPos
    let chunk : Chunk :=
      ⟨pageNum, chunkContent, decide (1 < pageNum),
       .breakElement (breakText.take 200) breakPos⟩
    let restPair := segmentLoop html rest (pageNum + 1) breakPos
    (chunk :: restPair.1, restPair.2)

/-- Embedding of `HTMLPageBreakSplitter.split_html_by_regex`. -/
def split_html_by_regex (html : List Char) : List Chunk :=
  let breakPositions := locateBreaks html
  if breakPositions.isEmpty then
    [⟨1, html, false, .noBreaksFound⟩]
  else
    let loopResult := segmentLoop html breakPositions 1 0
    let finalChunk := html.drop loopResult.2
    if finalChunk.isEmpty then loopResult.1
    else loopResult.1 ++ [⟨breakPositions.length + 1, finalChunk, true, .finalChunk⟩]

/-- The core of `HTMLPageBreakSplitter.reconstruct_file` (lines 164-168):
sort the chunks by page number (Python's `sorted`, stable) and concatenate
their contents. -/
def reconstruct_chunks (chunks : List Chunk) : List Char :=
  ((stableSort (fun a b => a.page ≤ b.page) chunks).map Chunk.content).flatten

/-- Embedding of `pathlib.PurePath.name` of a plain (no trailing slash) path: the part
after the last `/`. -/
def pathName (p : List Char) : List Char :=
  p.foldl (fun acc c => if c = '/' then [] else acc ++ [c]) []

/-- Embedding of `str.rfind('.')` on a name, as an `Option` index. -/
def lastDotIdx (l : List Char) : Option Nat :=
  ((l.enum.filter (fun ic => ic.2 == '.')).getLast?).map (fun ic => ic.1)

/-- Embedding of `pathlib.PurePath.suffix`: `name[i:]` for `i = name.rfind('.')` when
`0 < i < len(name) - 1`, else empty. -/
def pathSuffix (p : List Char) : List Char :=
  let name := pathName p
  match lastDotIdx name with
  | some i => if 0 < i ∧ i + 1 < name.length then name.drop i else []
  | none => []

/-- Embedding of `pathlib.PurePath.stem`: the name with its suffix removed. -/
def pathStem (p : List Char) : List Char :=
  let name := pathName p
  name.take (name.length - (pathSuffix p).length)

/-- Embedding of `str.lower` on ASCII text. -/
def lowerStr (l : List Char) : List Char := l.map Char.toLower

/-- The `<head.*?</head>` pattern (DOTALL, IGNORECASE) used for the head
excerpt in `process_file`. -/
def headRx : Rx := .seq (lits "<head") (.seq .lazyStarAny (lits "</head>"))

/-- The `output_data` dictionary written by `process_file`. -/
structure DocumentRecord where
  original_file : List Char
  total_pages : Nat
  file_size : Nat
  head_content : List Char
  chunks : List Chunk
  deriving DecidableEq

/-- The errors `process_file` raises before producing output. -/
inductive ProcessError where
  | fileNotFound
  | invalidExtension
  deriving DecidableEq

/-- Embedding of `HTMLPageBreakSplitter.process_file`, over an abstract read-only file
system `fs : path -> Option contents` (`fs p = none` iff the path does not
exist).  Instead of writing, a successful run returns the output file name
and the record that would be written; the error branches return before any
output exists, in source order: existence check, then suffix check, then
read and split. -/
def process_file (fs : List Char → Option (List Char)) (input_file : List Char)
    (output_file : Option (List Char)) :
    Except ProcessError (List Char × DocumentRecord) :=
  if (fs input_file).isNone then .error .fileNotFound
  else if lowerStr (pathSuffix input_file) ∉ [".html".data, ".htm".data] then
    .error .invalidExtension
  else
    let outName := output_file.getD (pathStem input_file ++ "_chunks.json".data)
    let html_content := (fs input_file).getD []
    let file_size := html_content.length
    let head_content := (searchFirst headRx html_content).getD []
    let chunks := split_html_by_regex html_content
    .ok (outName, ⟨input_file, chunks.length, file_size, head_content, chunks⟩)

/-! ### Helper lemmas -/

theorem stableInsert_perm (le : α → α → Bool) (a : α) (l : List α) :
    List.Perm (stableInsert le a l) (a :: l) := by
  induction l with
  | nil => simp [stableInsert]
  | cons b l ih =>
    unfold stableInsert
    by_cases h : le a b = true
    · simp [h]
    · simp only [h, if_false]
      exact (ih.cons b).trans (List.Perm.swap a b l)

theorem stableSort_perm (le : α → α → Bool) (l : List α) :
    List.Perm (stableSort le l) l := by
  induction l with
  | nil => simp [stableSort]
  | cons a l ih => exact (stableInsert_perm le a _).trans (ih.cons a)

theorem mem_stableSort (le : α → α → Bool) (l : List α) (a : α) :
    a ∈ stableSort le l ↔ a ∈ l :=
  (stableSort_perm le l).mem_iff

theorem mem_of_head? {l : List α} {a : α} (h : l.head? = some a) : a ∈ l := by
  cases l <;> simp_all

theorem mem_starSuffixes_length (p : Char → Bool) :
    ∀ s t, t ∈ starSuffixes p s → t.length ≤ s.length := by
  intro s
  induction s with
  | nil => simp [starSuffixes]
  | cons c s ih =>
    intro t ht
    unfold starSuffixes at ht
    by_cases h : p c = true
    · rw [if_pos h] at ht
      rcases List.mem_append.1 ht with ht | ht
      · exact le_trans (ih t ht) (by simp)
      · simp only [List.mem_singleton] at ht
        subst ht; exact le_refl _
    · rw [if_neg h] at ht
      simp only [List.mem_singleton] at ht
      subst ht; exact le_refl _

theorem mem_lazySuffixes_length :
    ∀ s t, t ∈ lazySuffixes s → t.length ≤ s.length := by
  intro s
  induction s with
  | nil => simp [lazySuffixes]
  | cons c s ih =>
    intro t ht
    unfold lazySuffixes at ht
    rcases List.mem_cons.1 ht with rfl | ht
    · exact le_refl _
    · exact le_trans (ih t ht) (by simp)

theorem mem_mrun_length :
    ∀ (r : Rx) (s t : List Char), t ∈ mrun r s → t.length ≤ s.length := by
  intro r
  induction r with
  | eps =>
    intro s t ht
    simp only [mrun, List.mem_singleton] at ht
    subst ht; exact le_refl _
  | cls p =>
    intro s t ht
    cases s with
    | nil => simp [mrun] at ht
    | cons c s =>
      unfold mrun at ht
      by_cases h : p c = true
      · simp only [h, if_true, List.mem_singleton] at ht
        subst ht; simp
      · simp [h] at ht
  | seq r1 r2 ih1 ih2 =>
    intro s t ht
    simp only [mrun, List.mem_flatMap] at ht
    obtain ⟨s1, hs1, ht⟩ := ht
    exact le_trans (ih2 s1 t ht) (ih1 s s1 hs1)
  | alt r1 r2 ih1 ih2 =>
    intro s t ht
    simp only [mrun, List.mem_append] at ht
    rcases ht with ht | ht
    · exact ih1 s t ht
    · exact ih2 s t ht
  | star p => exact mem_starSuffixes_length p
  | lazyStarAny => exact mem_lazySuffixes_length

theorem mem_mrun_seq_cls_length (p : Char → Bool) (r : Rx) :
    ∀ s t, t ∈ mrun (.seq (.cls p) r) s → t.length < s.length := by
  intro s t ht
  cases s with
  | nil => simp [mrun] at ht
  | cons c s =>
    simp only [mrun, List.mem_flatMap] at ht
    obtain ⟨s1, hs1, ht⟩ := ht
    by_cases h : p c = true
    · simp only [h, if_true, List.mem_singleton] at hs1
      subst hs1
      exact lt_of_le_of_lt (mem_mrun_length r s1 t ht) (by simp)
    · simp [h] at hs1

theorem matchAt_lit_seq_lt (c : Char) (r : Rx) (s rest : List Char)
    (h : matchAt (.seq (lit c) r) s = some rest) : rest.length < s.length :=
  mem_mrun_seq_cls_length _ r s rest (mem_of_head? h)

theorem matchAt_tag_pattern_lt (s rest : List Char)
    (h : matchAt tag_pattern s = some rest) : rest.length < s.length :=
  matchAt_lit_seq_lt '<' _ s rest h

theorem finditer_bounds (r : Rx)
    (hne : ∀ s rest, matchAt r s = some rest → rest.length < s.length) :
    ∀ (l : List Char) (off skip : Nat), ∀ m ∈ finditerAux r l off skip,
      off ≤ m.1 ∧ m.1 < off + l.length := by
  intro l
  induction l with
  | nil =>
    intro off skip m hm
    have hnone : (matchAt r []).isSome = false := by
      cases h : matchAt r [] with
      | none => rfl
      | some rest => exact absurd (hne [] rest h) (by simp)
    simp [finditerAux, hnone] at hm
  | cons c s ih =>
    intro off skip m hm
    unfold finditerAux at hm
    by_cases hso : skip ≤ off
    · simp only [hso, if_true] at hm
      cases hmt : matchAt r (c :: s) with
      | none =>
        rw [hmt] at hm
        have := ih (off + 1) skip m hm
        constructor
        · omega
        · simp only [List.length_cons]; omega
      | some rest =>
        rw [hmt] at hm
        have hlt := hne _ rest hmt
        have hlen1 : 1 ≤ (c :: s).length - rest.length := by
          simp only [List.length_cons] at hlt ⊢; omega
        simp only [show ((c :: s).length - rest.length = 0) = False by
          simp only [eq_iff_iff, iff_false]; omega, if_false] at hm
        rcases List.mem_cons.1 hm with rfl | hm
        · constructor
          · exact le_refl _
          · simp only [List.length_cons]; omega
        · have := ih (off + 1) (off + ((c :: s).length - rest.length)) m hm
          constructor
          · omega
          · simp only [List.length_cons]; omega
    · simp only [hso, if_false] at hm
      have := ih (off + 1) skip m hm
      constructor
      · omega
      · simp only [List.length_cons]; omega

theorem tagMatches_pos_lt (html : List Char) :
    ∀ m ∈ tagMatches html, m.1 < html.length := by
  intro m hm
  unfold tagMatches at hm
  obtain ⟨⟨st, ln⟩, hmem, rfl⟩ := List.mem_map.1 hm
  have h := finditer_bounds tag_pattern matchAt_tag_pattern_lt html 0 0 _ hmem
  simpa using h.2

theorem locateBreaks_pos_lt (html : List Char) :
    ∀ bp ∈ locateBreaks html, bp.1 < html.length := by
  intro bp hbp
  unfold locateBreaks at hbp
  rw [mem_stableSort] at hbp
  exact tagMatches_pos_lt html bp (List.mem_filter.1 hbp).1

theorem segmentLoop_length (html : List Char) :
    ∀ (bps : List (Nat × List Char)) (k l : Nat),
      ((segmentLoop html bps k l).1).length = bps.length := by
  intro bps
  induction bps with
  | nil => intro k l; rfl
  | cons b rest ih =>
    intro k l
    simp only [segmentLoop, List.length_cons]
    rw [ih]

theorem segmentLoop_pages (html : List Char) :
    ∀ (bps : List (Nat × List Char)) (k l : Nat),
      ((segmentLoop html bps k l).1).map Chunk.page = List.range' k bps.length := by
  intro bps
  induction bps with
  | nil => intro k l; rfl
  | cons b rest ih =>
    intro k l
    simp only [segmentLoop, List.length_cons, List.map_cons, List.range'_succ]
    rw [ih]

theorem segmentLoop_hbb (html : List Char) :
    ∀ (bps : List (Nat × List Char)) (k l : Nat),
      ((segmentLoop html bps k l).1).map Chunk.has_break_before =
        (List.range' k bps.length).map (fun i => decide (1 < i)) := by
  intro bps
  induction bps with
  | nil => intro k l; rfl
  | cons b rest ih =>
    intro k l
    simp only [segmentLoop, List.length_cons, List.map_cons, List.range'_succ]
    rw [ih]

theorem segmentLoop_snd (html : List Char) :
    ∀ (bps : List (Nat × List Char)) (k l : Nat),
      (segmentLoop html bps k l).2 = ((bps.getLast?).map Prod.fst).getD l := by
  intro bps
  induction bps with
  | nil => intro k l; rfl
  | cons b rest ih =>
    intro k l
    cases rest with
    | nil => simp [segmentLoop]
    | cons r rs =>
      show (segmentLoop html (r :: rs) (k + 1) b.1).2 = _
      rw [ih (k + 1) b.1, List.getLast?_cons_cons]
      rcases Option.isSome_iff_exists.1
        (List.getLast?_isSome.2 (List.cons_ne_nil r rs)) with ⟨x, hx⟩
      rw [hx]
      rfl

theorem segmentLoop_no_final (html : List Char) :
    ∀ (bps : List (Nat × List Char)) (k l : Nat),
      ∀ c ∈ (segmentLoop html bps k l).1,
        c.break_element_info ≠ BreakInfo.finalChunk := by
  intro bps
  induction bps with
  | nil => intro k l c hc; simp [segmentLoop] at hc
  | cons b rest ih =>
    intro k l c hc
    simp only [segmentLoop] at hc
    rcases List.mem_cons.1 hc with rfl | hc
    · intro h; exact BreakInfo.noConfusion h
    · exact ih (k + 1) b.1 c hc

theorem range'_map_one_lt_of_two_le (m : Nat) :
    ∀ k, 2 ≤ k →
      (List.range' k m).map (fun i => decide (1 < i)) = List.replicate m true := by
  induction m with
  | zero => intro k _; rfl
  | succ m ih =>
    intro k hk
    rw [List.range'_succ, List.map_cons, ih (k + 1) (by omega), List.replicate_succ]
    simp [decide_eq_true_eq]
    omega

theorem range'_one_map_one_lt (n : Nat) (h : 1 ≤ n) :
    (List.range' 1 n).map (fun i => decide (1 < i)) =
      false :: List.replicate (n - 1) true := by
  obtain ⟨m, rfl⟩ : ∃ m, n = m + 1 := ⟨n - 1, by omega⟩
  rw [List.range'_succ, List.map_cons, range'_map_one_lt_of_two_le m 2 (le_refl 2)]
  simp

theorem mem_of_getLast?_eq {l : List α} {a : α} (h : l.getLast? = some a) : a ∈ l := by
  have hm : a ∈ l.getLast? := Option.mem_def.2 h
  rcases List.mem_getLast?_eq_getLast hm with ⟨hne, rfl⟩
  exact List.getLast_mem hne

theorem split_html_by_regex_of_no_breaks (html : List Char)
    (h : (locateBreaks html).isEmpty = true) :
    split_html_by_regex html = [⟨1, html, false, .noBreaksFound⟩] := by
  simp only [split_html_by_regex, h, if_true]

theorem split_html_by_regex_of_breaks (html : List Char)
    (h : (locateBreaks html).isEmpty = false) :
    split_html_by_regex html =
      if (html.drop (segmentLoop html (locateBreaks html) 1 0).2).isEmpty then
        (segmentLoop html (locateBreaks html) 1 0).1
      else
        (segmentLoop html (locateBreaks html) 1 0).1 ++
          [⟨(locateBreaks html).length + 1,
            html.drop (segmentLoop html (locateBreaks html) 1 0).2, true, .finalChunk⟩] := by
  simp only [split_html_by_regex, h, Bool.false_eq_true, if_false]

theorem trimBack_eq_zero (html : List Char) :
    ∀ t, (∀ i, i < t → isTrimWs (html.getD i '\x00') = true) →
      trimBack html 0 t = 0 := by
  intro t
  induction t with
  | zero => intro _; rfl
  | succ t ih =>
    intro hws
    unfold trimBack
    rw [if_pos ⟨Nat.succ_pos t, hws t (Nat.lt_succ_self t)⟩]
    exact ih (fun i hi => hws i (Nat.lt_succ_of_lt hi))

end HtmlSplitter

namespace HtmlSplitterClaims

open HtmlSplitter

/-! ### Claim C1 (code bug) -/

/-- Input for C1: a single space precedes the break tag. -/
def rtInput : List Char := "a <b style=\"break-before:page\">c".data

/-- Claim C1 states that splitting and then reconstructing (concatenating
chunk contents in page order) returns the input exactly.  The code
violates this: the walk-back in `split_html_by_regex` ends the current
chunk at `temp_break_pos`, but the next chunk starts at the untrimmed
`break_pos` (`last_pos = break_pos`), so the whitespace run between the
two lands in no chunk.  On `rtInput` the space at index 1 is dropped and
reconstruction returns `"a<b ...>c"`, not the input. -/
theorem roundtrip_drops_whitespace :
    reconstruct_chunks (split_html_by_regex rtInput) ≠ rtInput := by decide

/-! ### Claim C2 (code bug) -/

/-- Input for C2: the run `"\n\t"` precedes the break tag. -/
def wsInput : List Char := "x\n\t<a style=\"page-break-before: always\">y".data

/-- Claim C2 states that the trailing whitespace run before a break is
included at the end of the current (earlier) chunk, with the break marker
starting the next chunk.  In the code the current chunk ends at the
trimmed position, so the run `"\n\t"` (indices 1-2, before the break at
index 3) appears in neither chunk: the first chunk is `"x"` and the
second starts at the break tag. -/
theorem whitespace_in_neither_chunk :
    (split_html_by_regex wsInput).map Chunk.content =
      ["x".data, "<a style=\"page-break-before: always\">y".data] := by decide

/-! ### Claim C3 (code bug) -/

/-- Input for C3: two spaces precede the break tag at index 3. -/
def gapInput : List Char := "q  <i style=\"break-after:page\">z".data

/-- Claim C3 states that each chunk's source slice starts where the prior
boundary's whitespace reallocation left off (no gap) and slices never
overlap.  The code leaves a gap: on `gapInput` the first chunk is the
slice `[0, 1)` (the walk-back trimmed indices 1-2) while the second chunk
is the slice `[3, len)` starting at the untrimmed break position, so the
characters at indices 1-2 are inside no slice. -/
theorem slices_leave_gap :
    (split_html_by_regex gapInput).map Chunk.content =
      [gapInput.take 1, gapInput.drop 3] := by decide

/-! ### Claim C4 (confirmed) -/

/-- Claim C4: when the break locator finds no break indicators, the
splitter returns exactly one chunk whose content is the whole text, with
page 1, `has_break_before = False` and the `'No breaks found'`
sentinel. -/
theorem no_break_identity (html : List Char) (h : locateBreaks html = []) :
    split_html_by_regex html = [⟨1, html, false, .noBreaksFound⟩] :=
  split_html_by_regex_of_no_breaks html (by rw [h]; rfl)

/-- Input for the C4 witness: a document with no break indicators. -/
def noBreakInput : List Char := "<p>hi</p>".data

/-- Witness for C4 at `noBreakInput`. -/
theorem no_break_identity_witness :
    split_html_by_regex noBreakInput = [⟨1, noBreakInput, false, .noBreaksFound⟩] :=
  no_break_identity noBreakInput (by decide)

/-! ### Claim C5 (confirmed) -/

/-- Claim C5: a tag-pattern match (an element whose opening tag carries a
trigger declaration in a style attribute) produces a break indicator if
and only if `avoid_regex` does not match anywhere in the tag text: if an
avoidance pattern also matches, the candidate is never in
`break_positions`; if only the trigger matches, it always is. -/
theorem avoidance_precedence (html : List Char) (m : Nat × List Char)
    (hm : m ∈ tagMatches html) :
    (rsearch avoid_regex (tagInner m.2) = true → m ∉ locateBreaks html) ∧
    (rsearch avoid_regex (tagInner m.2) = false → m ∈ locateBreaks html) := by
  constructor
  · intro ha hmem
    unfold locateBreaks at hmem
    rw [mem_stableSort] at hmem
    have := (List.mem_filter.1 hmem).2
    rw [ha] at this
    simp at this
  · intro ha
    unfold locateBreaks
    rw [mem_stableSort]
    exact List.mem_filter.2 ⟨hm, by rw [ha]; rfl⟩

/-- Input for the C5 witness: a trigger-only element at offset 0 and a
trigger-plus-avoidance element at offset 35. -/
def avoidInput : List Char :=
  "<a style=\"break-before:page\">1</a>\n<b style=\"break-inside:avoid;break-before:page\">2</b>".data

set_option maxRecDepth 8000 in
/-- Witness for C5 at `avoidInput`: the avoidance-carrying element's match
produces no break indicator, while the trigger-only element's match
does. -/
theorem avoidance_precedence_witness :
    (35, "<b style=\"break-inside:avoid;break-before:page\">".data) ∉ locateBreaks avoidInput ∧
    (0, "<a style=\"break-before:page\">".data) ∈ locateBreaks avoidInput :=
  ⟨(avoidance_precedence avoidInput
      (35, "<b style=\"break-inside:avoid;break-before:page\">".data) (by decide)).1 (by decide),
   (avoidance_precedence avoidInput
      (0, "<a style=\"break-before:page\">".data) (by decide)).2 (by decide)⟩

/-! ### Claim C6 (confirmed) -/

/-- Claim C6: for every input, the chunk list's page numbers are exactly
`1..K` in order (no gaps, no repeats), where `K` is the number of chunks,
and `has_break_before` is `False` on the first chunk and `True` on every
later one. -/
theorem page_numbering_contiguity (html : List Char) :
    (split_html_by_regex html).map Chunk.page =
      List.range' 1 (split_html_by_regex html).length ∧
    (split_html_by_regex html).map Chunk.has_break_before =
      false :: List.replicate ((split_html_by_regex html).length - 1) true := by
  by_cases h : (locateBreaks html).isEmpty
  · rw [split_html_by_regex_of_no_breaks html h]
    exact ⟨rfl, rfl⟩
  · have hie : (locateBreaks html).isEmpty = false := by
      cases hh : (locateBreaks html).isEmpty
      · rfl
      · exact absurd hh h
    have hne : locateBreaks html ≠ [] := List.isEmpty_eq_false.1 hie
    have hN : 1 ≤ (locateBreaks html).length := List.length_pos.2 hne
    rw [split_html_by_regex_of_breaks html hie]
    by_cases hf : (html.drop (segmentLoop html (locateBreaks html) 1 0).2).isEmpty
    · rw [if_pos hf]
      refine ⟨?_, ?_⟩
      · rw [segmentLoop_pages, segmentLoop_length]
      · rw [segmentLoop_hbb, segmentLoop_length, range'_one_map_one_lt _ hN]
    · rw [if_neg hf]
      refine ⟨?_, ?_⟩
      · rw [List.map_append, segmentLoop_pages, List.length_append, segmentLoop_length]
        simp only [List.map_cons, List.map_nil, List.length_cons, List.length_nil]
        rw [List.range'_concat]
        simp [Nat.add_comm]
      · rw [List.map_append, segmentLoop_hbb, range'_one_map_one_lt _ hN,
          List.length_append, segmentLoop_length]
        simp only [List.map_cons, List.map_nil, List.length_cons, List.length_nil,
          List.cons_append]
        rw [show (locateBreaks html).length + 0 + 1 - 1 =
              ((locateBreaks html).length - 1) + 1 from by omega,
          List.replicate_succ']

/-! ### Claim C7 (confirmed) -/

/-- Claim C7: with `N ≥ 1` breaks and final cursor `last_pos` (the last
break's position), the splitter appends one final chunk with content
`text[last_pos:]`, page `N + 1`, `has_break_before = True` and the
`'Final chunk'` sentinel exactly when the remainder `text[last_pos:]` is
non-empty; when the remainder is empty no chunk carries the final-chunk
sentinel and there are just `N` chunks. -/
theorem final_chunk_rule (html : List Char) (bp : Nat × List Char)
    (h : (locateBreaks html).getLast? = some bp) :
    ((html.drop bp.1).isEmpty = false →
       (split_html_by_regex html).length = (locateBreaks html).length + 1 ∧
       (split_html_by_regex html).getLast? =
         some ⟨(locateBreaks html).length + 1, html.drop bp.1, true, .finalChunk⟩) ∧
    ((html.drop bp.1).isEmpty = true →
       (split_html_by_regex html).length = (locateBreaks html).length ∧
       ∀ c ∈ split_html_by_regex html, c.break_element_info ≠ BreakInfo.finalChunk) := by
  have hne : locateBreaks html ≠ [] := by
    intro he
    rw [he] at h
    exact Option.noConfusion h
  have hie : (locateBreaks html).isEmpty = false := List.isEmpty_eq_false.2 hne
  have hsnd : (segmentLoop html (locateBreaks html) 1 0).2 = bp.1 := by
    rw [segmentLoop_snd, h]
    rfl
  rw [split_html_by_regex_of_breaks html hie, hsnd]
  constructor
  · intro hfe
    rw [if_neg (by rw [hfe]; exact Bool.false_ne_true)]
    constructor
    · rw [List.length_append, segmentLoop_length]
      rfl
    · rw [List.getLast?_concat]
  · intro hfe
    rw [if_pos hfe]
    exact ⟨segmentLoop_length html _ 1 0, segmentLoop_no_final html _ 1 0⟩

/-- Input for the C7 witness: one break at offset 2 with a non-empty
remainder. -/
def finalInput : List Char := "a <b style=\"break-before:page\">c".data

/-- Witness for C7 at `finalInput`. -/
theorem final_chunk_rule_witness :
    ((finalInput.drop 2).isEmpty = false →
       (split_html_by_regex finalInput).length = (locateBreaks finalInput).length + 1 ∧
       (split_html_by_regex finalInput).getLast? =
         some ⟨(locateBreaks finalInput).length + 1, finalInput.drop 2, true, .finalChunk⟩) ∧
    ((finalInput.drop 2).isEmpty = true →
       (split_html_by_regex finalInput).length = (locateBreaks finalInput).length ∧
       ∀ c ∈ split_html_by_regex finalInput, c.break_element_info ≠ BreakInfo.finalChunk) :=
  final_chunk_rule finalInput (2, "<b style=\"break-before:page\">".data) (by decide)

/-! ### Claim C8 (confirmed) -/

/-- Claim C8: in split mode, `process_file` raises for a non-existent
path before anything else, and raises for an existing path whose
lowercased suffix is not `.html`/`.htm`; the extension error is
independent of the file's contents (the check runs before the read), and
in the `Except` embedding an error result carries no output at all. -/
theorem process_file_rejects (fs : List Char → Option (List Char))
    (input_file : List Char) (output_file : Option (List Char)) :
    (fs input_file = none →
       process_file fs input_file output_file = .error .fileNotFound) ∧
    (∀ contents, fs input_file = some contents →
       lowerStr (pathSuffix input_file) ∉ [".html".data, ".htm".data] →
       process_file fs input_file output_file = .error .invalidExtension) := by
  constructor
  · intro h
    simp [process_file, h]
  · intro contents hc hsuf
    simp [process_file, hc, hsuf]

/-- File system for the C8 witness: only the path `doc.txt` exists. -/
def fsOnlyTxt : List Char → Option (List Char) :=
  fun q => if q = "doc.txt".data then some "x".data else none

/-- Witness for C8: a missing `.html` path is rejected as not found, and
the existing `.txt` path is rejected for its extension whatever its
contents. -/
theorem process_file_rejects_witness :
    process_file fsOnlyTxt "missing.html".data none = .error .fileNotFound ∧
    process_file fsOnlyTxt "doc.txt".data none = .error .invalidExtension :=
  ⟨(process_file_rejects fsOnlyTxt "missing.html".data none).1 (by decide),
   (process_file_rejects fsOnlyTxt "doc.txt".data none).2 "x".data (by decide) (by decide)⟩

/-! ### Claim C9 (confirmed) -/

/-- Claim C9: every recorded break position is the starting offset of a
matched opening tag, hence strictly inside the text, so when the locator
finds `N ≥ 1` breaks the remainder after the last break is non-empty, the
final-chunk branch fires, and the splitter returns exactly `N + 1`
chunks. -/
theorem break_count_plus_one (html : List Char)
    (h : 1 ≤ (locateBreaks html).length) :
    (∀ bp ∈ locateBreaks html, bp.1 < html.length) ∧
    (split_html_by_regex html).length = (locateBreaks html).length + 1 := by
  refine ⟨locateBreaks_pos_lt html, ?_⟩
  have hne : locateBreaks html ≠ [] := List.length_pos.1 (by omega)
  have hie : (locateBreaks html).isEmpty = false := List.isEmpty_eq_false.2 hne
  rcases Option.isSome_iff_exists.1 (List.getLast?_isSome.2 hne) with ⟨bp, hbp⟩
  have hmem : bp ∈ locateBreaks html := mem_of_getLast?_eq hbp
  have hlt : bp.1 < html.length := locateBreaks_pos_lt html bp hmem
  have hsnd : (segmentLoop html (locateBreaks html) 1 0).2 = bp.1 := by
    rw [segmentLoop_snd, hbp]
    rfl
  have hdne : html.drop bp.1 ≠ [] := by
    rw [Ne, List.drop_eq_nil_iff]
    omega
  rw [split_html_by_regex_of_breaks html hie, hsnd,
    if_neg (by rw [List.isEmpty_eq_false.2 hdne]; exact Bool.false_ne_true),
    List.length_append, segmentLoop_length]
  rfl

/-- Input for the C9 witness: one break indicator. -/
def countInput : List Char := "u<a style=\"break-after:page\">v".data

/-- Witness for C9 at `countInput`. -/
theorem break_count_plus_one_witness :
    (∀ bp ∈ locateBreaks countInput, bp.1 < countInput.length) ∧
    (split_html_by_regex countInput).length = (locateBreaks countInput).length + 1 :=
  break_count_plus_one countInput (by decide)

/-! ### Claim C10 (confirmed) -/

/-- Claim C10: when every character before the first break position is
trim whitespace (including a break at offset 0), the walk-back reaches
`last_pos = 0` and stops, and the splitter still emits a first chunk with
page 1, `has_break_before = False` and empty content. -/
theorem leading_ws_first_chunk_empty (html : List Char) (bp : Nat × List Char)
    (rest : List (Nat × List Char)) (h : locateBreaks html = bp :: rest)
    (hws : ∀ i, i < bp.1 → isTrimWs (html.getD i '\x00') = true) :
    ∃ tail, split_html_by_regex html =
      Chunk.mk 1 [] false (BreakInfo.breakElement (bp.2.take 200) bp.1) :: tail := by
  have hie : (locateBreaks html).isEmpty = false := by
    rw [h]
    rfl
  have htrim : trimBack html 0 bp.1 = 0 := trimBack_eq_zero html bp.1 hws
  have hloop : segmentLoop html (locateBreaks html) 1 0 =
      (Chunk.mk 1 [] false (BreakInfo.breakElement (bp.2.take 200) bp.1) ::
         (segmentLoop html rest 2 bp.1).1,
       (segmentLoop html rest 2 bp.1).2) := by
    rw [h]
    show ((⟨1, pySlice html 0 (trimBack html 0 bp.1), decide (1 < 1),
        .breakElement (bp.2.take 200) bp.1⟩ : Chunk) ::
        (segmentLoop html rest 2 bp.1).1, (segmentLoop html rest 2 bp.1).2) = _
    rw [htrim]
    rfl
  rw [split_html_by_regex_of_breaks html hie, hloop]
  by_cases hf : (html.drop (segmentLoop html rest 2 bp.1).2).isEmpty
  · exact ⟨(segmentLoop html rest 2 bp.1).1, by rw [if_pos hf]⟩
  · refine ⟨(segmentLoop html rest 2 bp.1).1 ++
      [⟨(locateBreaks html).length + 1,
        html.drop (segmentLoop html rest 2 bp.1).2, true, .finalChunk⟩], ?_⟩
    rw [if_neg hf, List.cons_append]

/-- Input for the C10 witness: only whitespace (a newline and a space)
precedes the break at offset 2. -/
def leadingWsInput : List Char := "\n <a style=\"break-before:page\">x".data

/-- Witness for C10 at `leadingWsInput`. -/
theorem leading_ws_first_chunk_empty_witness :
    ∃ tail, split_html_by_regex leadingWsInput =
      Chunk.mk 1 [] false
        (BreakInfo.breakElement (("<a style=\"break-before:page\">".data).take 200) 2) :: tail :=
  leading_ws_first_chunk_empty leadingWsInput
    (2, "<a style=\"break-before:page\">".data) [] (by decide)
    (by decide)

end HtmlSplitterClaims

